import Mathlib

/-!
Verification of the eth-log-indexer repository.

Each Go construct that the claims touch is embedded as an executable Lean
definition: BoltDB buckets become sorted association lists, each
`db.Update` transaction becomes one pure state transition, and `uint64`
arithmetic is carried out on `Nat` with explicit reduction modulo `2 ^ 64`
where the Go code can wrap.
-/

/-- The modulus of Go's `uint64` type. -/
def U64 : Nat := 2 ^ 64

/-- `types.LogEntry` (pkg/types): the indexed unit stored in the `logs`
bucket.  `CreatedAt` (a `time.Time`) is modelled as an opaque natural. -/
structure LogEntry where
  index : Nat
  blockNumber : Nat
  blockHash : String
  parentHash : String
  l1InfoRoot : String
  timestamp : Nat
  gasUsed : Nat
  txHash : String
  logIndex : Nat
  createdAt : Nat
deriving DecidableEq, Repr

/-- `types.CheckpointData` (pkg/types): the cursor blob stored under the
`"current"` key of the `checkpoint` bucket. -/
structure CheckpointData where
  lastProcessedBlock : Nat
  nextIndex : Nat
  lastBlockHash : String
  timestamp : Int
deriving DecidableEq, Repr

/-- The persistent state of `storage.BoltStorage`: the three bucket
families the claims speak about.  Bolt stores keys in sorted byte order;
keys here are the numeric values whose big-endian encodings the buckets
use (the big-endian encoding is order-preserving, as proved below, so
numeric order is the same order).  The `meta` bucket is never read or
written by the code under
verification and is omitted. -/
structure BoltState where
  logs : List (Nat × LogEntry)
  blockmap : List (Nat × String)
  checkpoint : Option CheckpointData
deriving DecidableEq, Repr

/-- `bolt.Bucket.Put` on a sorted association list: insert or overwrite,
keeping keys sorted. -/
def putKV {α : Type} : List (Nat × α) → Nat → α → List (Nat × α)
  | [], k, v => [(k, v)]
  | (k', v') :: rest, k, v =>
    if k < k' then (k, v) :: (k', v') :: rest
    else if k = k' then (k, v) :: rest
    else (k', v') :: putKV rest k v

/-- `BoltStorage.StoreLog`: one `db.Update` transaction that puts the
serialized entry into the `logs` bucket under key
`uint64ToBytes(entry.Index)`. -/
def storeLog (st : BoltState) (entry : LogEntry) : BoltState :=
  { st with logs := putKV st.logs entry.index entry }

/-- `BoltStorage.StoreBlockHash`: one transaction writing
`blockmap[blockNumber] = blockHash`. -/
def storeBlockHash (st : BoltState) (blockNumber : Nat) (blockHash : String) : BoltState :=
  { st with blockmap := putKV st.blockmap blockNumber blockHash }

/-- `BoltStorage.SaveCheckpoint`: one transaction writing the checkpoint
bucket's single `"current"` key. -/
def saveCheckpoint (st : BoltState) (checkpoint : CheckpointData) : BoltState :=
  { st with checkpoint := some checkpoint }

/-- `BoltStorage.Rollback`: one transaction that scans the `logs` bucket
and deletes every entry whose value has `BlockNumber > toBlockNumber`.
It touches neither the `blockmap` bucket nor the checkpoint. -/
def rollback (st : BoltState) (toBlockNumber : Nat) : BoltState :=
  { st with logs := st.logs.filter (fun kv => !(toBlockNumber < kv.2.blockNumber)) }

/-- The state `NewBoltStorage` creates: all buckets exist and are empty,
no checkpoint has been stored. -/
def initState : BoltState := ⟨[], [], none⟩

/-- States reachable from a fresh store through the write operations the
storage layer exposes.  Each constructor is one atomic BoltDB
transaction; read operations do not change state. -/
inductive Reachable : BoltState → Prop
  | init : Reachable initState
  | storeLog {st} (entry : LogEntry) : Reachable st → Reachable (storeLog st entry)
  | storeBlockHash {st} (n : Nat) (h : String) : Reachable st → Reachable (storeBlockHash st n h)
  | saveCheckpoint {st} (c : CheckpointData) : Reachable st → Reachable (saveCheckpoint st c)
  | rollback {st} (a : Nat) : Reachable st → Reachable (rollback st a)

/-- `storage.uint64ToBytes`: `binary.BigEndian.PutUint64` into an 8-byte
slice; byte `i` is `byte(n >> (56 - 8*i))`. -/
def uint64ToBytes (n : Nat) : List Nat :=
  [n / 2 ^ 56 % 256, n / 2 ^ 48 % 256, n / 2 ^ 40 % 256, n / 2 ^ 32 % 256,
   n / 2 ^ 24 % 256, n / 2 ^ 16 % 256, n / 2 ^ 8 % 256, n % 256]

/-- `storage.bytesToUint64`: `binary.BigEndian.Uint64`. -/
def bytesToUint64 (b : List Nat) : Nat :=
  b.getD 0 0 * 2 ^ 56 + b.getD 1 0 * 2 ^ 48 + b.getD 2 0 * 2 ^ 40 + b.getD 3 0 * 2 ^ 32 +
  b.getD 4 0 * 2 ^ 24 + b.getD 5 0 * 2 ^ 16 + b.getD 6 0 * 2 ^ 8 + b.getD 7 0

/-- Lexicographic comparison on byte strings (the order BoltDB keeps keys
in, `bytes.Compare ≤ 0`). -/
def lexLE : List Nat → List Nat → Bool
  | [], _ => true
  | _ :: _, [] => false
  | a :: as, b :: bs => if a < b then true else if b < a then false else lexLE as bs

/-- A committed record in block 3 (concrete test data). -/
def entryBlock3 : LogEntry := ⟨0, 3, "0xb3", "0xp3", "0xroot3", 1000, 21000, "0xtx3", 0, 0⟩

/-- A committed record in block 7 (concrete test data). -/
def entryBlock7 : LogEntry := ⟨1, 7, "0xb7", "0xp7", "0xroot7", 1001, 21000, "0xtx7", 1, 0⟩

/-- A store holding logs from blocks 3 and 7, anchors for both blocks,
and a checkpoint at block 3: the state a rollback to block 3 would be
asked to repair. -/
def rollbackDemoState : BoltState :=
  ⟨[(0, entryBlock3), (1, entryBlock7)],
   [(3, "0xb3"), (7, "0xb7")],
   some ⟨3, 2, "0xb3", 0⟩⟩

/-- The state reached from a fresh store by a single `StoreLog`
transaction, before any anchor or checkpoint write. -/
def partialWriteState : BoltState := storeLog initState entryBlock3

/-- The cursor loop of `BoltStorage.GetLogsByRange`, already positioned
by `Seek` (the caller passes the entries with key ≥ `startIndex`, in key
order).  For each entry: stop before appending when
`endIndex > 0 && idx > endIndex`; append; stop after appending when
`limit > 0 && len(results) >= limit`.  `cnt` is `len(results)` so far. -/
def scanFrom (endIndex : Nat) (limit : Int) : List (Nat × LogEntry) → Nat → List LogEntry
  | [], _ => []
  | (k, v) :: rest, cnt =>
    if 0 < endIndex ∧ endIndex < k then []
    else if 0 < limit ∧ limit ≤ (cnt : Int) + 1 then [v]
    else v :: scanFrom endIndex limit rest (cnt + 1)

/-- `BoltStorage.GetLogsByRange`: `Seek(uint64ToBytes startIndex)` on the
sorted `logs` bucket yields exactly the entries with key ≥ `startIndex`
(the big-endian key encoding is order-preserving); then the cursor loop
runs. -/
def getLogsByRange (st : BoltState) (startIndex endIndex : Nat) (limit : Int) : List LogEntry :=
  scanFrom endIndex limit (st.logs.filter (fun kv => startIndex ≤ kv.1)) 0

/-- `BoltStorage.GetLogsByBlockNumber`: full scan of the `logs` bucket in
key order, keeping entries whose `BlockNumber` matches. -/
def getLogsByBlockNumber (st : BoltState) (blockNumber : Nat) : List LogEntry :=
  (st.logs.filter (fun kv => kv.2.blockNumber = blockNumber)).map Prod.snd

/-- `BoltStorage.GetLogsByTxHash`: full scan keeping entries whose
`TxHash` matches. -/
def getLogsByTxHash (st : BoltState) (txHash : String) : List LogEntry :=
  (st.logs.filter (fun kv => kv.2.txHash = txHash)).map Prod.snd

/-- `BoltStorage.GetTotalCount`: `Stats().KeyN` of the `logs` bucket. -/
def getTotalCount (st : BoltState) : Nat := st.logs.length

/-- The query parameters of `GET /v1/logs`.  A numeric parameter is
`none` when absent from the URL or rejected by `strconv` (both make the
Go parser return its default), and `some v` when it parses to `v`;
`txHash` is the raw string, `""` when absent. -/
structure LogsQuery where
  startIndex : Option Nat
  endIndex : Option Nat
  blockNumber : Option Nat
  txHash : String
  limit : Option Int
deriving DecidableEq, Repr

/-- `api.parseUint64`: `strconv.ParseUint(s, 10, 64)` with a default on
absence or error; values outside 64 bits are an error. -/
def parseUint64 (s : Option Nat) (defaultVal : Nat) : Nat :=
  match s with
  | some v => if v < U64 then v else defaultVal
  | none => defaultVal

/-- `api.parseInt`: `strconv.Atoi` with a default; values outside the
64-bit signed range are an error. -/
def parseInt (s : Option Int) (defaultVal : Int) : Int :=
  match s with
  | some v => if -(2 ^ 63) ≤ v ∧ v < 2 ^ 63 then v else defaultVal
  | none => defaultVal

/-- Go's conversion `uint64(i)` of a signed 64-bit value: reduction
modulo `2 ^ 64`. -/
def intToU64 (i : Int) : Nat := (i % (U64 : Int)).toNat

/-- Go's wrapping `uint64` subtraction `a - b` (for `a, b < 2 ^ 64`). -/
def u64sub (a b : Nat) : Nat := (a + U64 - b) % U64

/-- Which storage query `handleGetLogs` dispatched to. -/
inductive Route where
  | byBlock
  | byTx
  | byRange
deriving DecidableEq, Repr

/-- `api.handleGetLogs`: parse the parameters, dispatch on
`blockNumber > 0`, then `txHash != ""`, else the range scan with the
default latest-N window when neither index is given; finally replace a
nil slice with an empty one (`none` models Go's nil slice, which would
serialize to `null`; `some []` serializes to `[]`).  The modelled
storage never returns an error, so the error path is not represented. -/
def handleGetLogs (st : BoltState) (q : LogsQuery) : Route × Option (List LogEntry) :=
  let startIndex := parseUint64 q.startIndex 0
  let endIndex := parseUint64 q.endIndex 0
  let blockNumber := parseUint64 q.blockNumber 0
  let txHash := q.txHash
  let limit := parseInt q.limit 100
  let routed : Route × Option (List LogEntry) :=
    if 0 < blockNumber then (Route.byBlock, some (getLogsByBlockNumber st blockNumber))
    else if txHash ≠ "" then (Route.byTx, some (getLogsByTxHash st txHash))
    else
      let window : Nat × Nat :=
        if startIndex = 0 ∧ endIndex = 0 ∧ 0 < limit then
          (if 0 < getTotalCount st then
            (u64sub (getTotalCount st) (intToU64 limit), getTotalCount st - 1)
          else (startIndex, endIndex))
        else (startIndex, endIndex)
      (Route.byRange, some (getLogsByRange st window.1 window.2 limit))
  (routed.1, match routed.2 with | none => some [] | some l => some l)

/-- A request that sets `blockNumber=0` (set, but zero) together with a
transaction hash. -/
def qBlockZero : LogsQuery := ⟨none, none, some 0, "0xdead", none⟩

/-- A request that sets `blockNumber=7` only. -/
def qBlockSeven : LogsQuery := ⟨none, none, some 7, "", none⟩

/-- A request with no parameters at all (limit defaults to 100). -/
def qDefault : LogsQuery := ⟨none, none, none, "", none⟩

/-- `config.Config` (the fields validation and the claims mention;
`workers` is Go `int`). -/
structure Config where
  rpc : String
  contractAddr : String
  eventTopic : String
  workers : Int
deriving DecidableEq, Repr

/-- `config.ValidationError`. -/
structure ValidationError where
  field : String
  message : String
deriving DecidableEq, Repr

/-- `Config.Validate`: returns the first violated requirement, or `none`
(Go `nil`) when the configuration is accepted.  The source checks only
the three string fields. -/
def Config.Validate (c : Config) : Option ValidationError :=
  if c.rpc = "" then some ⟨"rpc", "RPC endpoint is required"⟩
  else if c.contractAddr = "" then some ⟨"contract", "contract address is required"⟩
  else if c.eventTopic = "" then some ⟨"topic", "event topic is required"⟩
  else none

/-- A configuration with all required strings set but `workers = 0`. -/
def workersZeroConfig : Config := ⟨"http://localhost:8545", "0xc0ffee", "0xddf2", 0⟩

/-- One planned batch of `generateAdaptiveBatches` (main.go `BatchInfo`;
the fields the claims are about — `WorkerID`, `DbPath` and the metrics
fields play no part in planning or index assignment). -/
structure BatchInfo where
  startBlock : Nat
  endBlock : Nat
  startIndex : Nat
  logCount : Nat
deriving DecidableEq, Repr

/-- The `endBlock` computation of one planner iteration:
`endBlock := startBlock + MAX_BLOCK_RANGE - 1` in wrapping `uint64`
arithmetic, clipped to the configured end block. -/
def batchEnd (endB maxRange start : Nat) : Nat :=
  if endB < (start + maxRange - 1) % U64 then endB else (start + maxRange - 1) % U64

/-- The loop of `HyperscaleIndexer.generateAdaptiveBatches` (main.go):
starting at `start` with next free global index `idx`, emit the batch
`[start, batchEnd]`, pre-scan it (`counts start end` models
`len(client.FilterLogs(start, end))`), reserve `StartIndex = idx`, and
continue at `endBlock + 1` with `idx + count` — all block and index
arithmetic wrapping `uint64`.  The Go loop has no iteration bound;
`fuel` bounds the recursion, and `none` means the loop had not exited
after `fuel` iterations (so the Go function has not returned). -/
def genBatchesAux (endB maxRange : Nat) (counts : Nat → Nat → Nat) :
    Nat → Nat → Nat → Option (List BatchInfo)
  | 0, start, _ => if endB < start then some [] else none
  | fuel + 1, start, idx =>
    if endB < start then some []
    else
      Option.map (fun ws => ⟨start, batchEnd endB maxRange start, idx,
          counts start (batchEnd endB maxRange start)⟩ :: ws)
        (genBatchesAux endB maxRange counts fuel ((batchEnd endB maxRange start + 1) % U64)
          ((idx + counts start (batchEnd endB maxRange start)) % U64))

/-- `generateAdaptiveBatches`: run the planner loop from the configured
start block with index counter 0. -/
def generateAdaptiveBatches (startB endB maxRange : Nat) (counts : Nat → Nat → Nat)
    (fuel : Nat) : Option (List BatchInfo) :=
  genBatchesAux endB maxRange counts fuel startB 0

/-- A fetched log together with the header/transaction data
`processAdaptiveBatch` looks up per log (`BlockByHash`,
`TransactionByHash`). -/
structure RawLog where
  blockNumber : Nat
  parentHash : String
  data : String
  timestamp : Nat
  gasUsed : Nat
  txHash : String
  logIndex : Nat
deriving DecidableEq, Repr

/-- main.go's own `LogEntry` (distinct from `types.LogEntry`). -/
structure MainLogEntry where
  index : Nat
  blockNumber : Nat
  parentHash : String
  l1InfoRoot : String
  timestamp : Nat
  gasUsed : Nat
  txHash : String
  logIndex : Nat
deriving DecidableEq, Repr

/-- The storage loop of `HyperscaleIndexer.processAdaptiveBatch`: the
`i`-th fetched log is stored with `Index = batch.StartIndex + uint64(i)`
(wrapping). -/
def processAdaptiveBatch (b : BatchInfo) (logs : List RawLog) : List MainLogEntry :=
  logs.enum.map (fun p =>
    ⟨(b.startIndex + p.1) % U64, p.2.blockNumber, p.2.parentHash, p.2.data,
     p.2.timestamp, p.2.gasUsed, p.2.txHash, p.2.logIndex⟩)

/-- The value denoted by a big-endian digit string in base 256. -/
def digitsVal : List Nat → Nat
  | [] => 0
  | d :: ds => d * 256 ^ ds.length + digitsVal ds

theorem digitsVal_lt : ∀ (ds : List Nat), (∀ d ∈ ds, d < 256) → digitsVal ds < 256 ^ ds.length
  | [], _ => by simp [digitsVal]
  | d :: ds, h => by
    have hd : d < 256 := h d (by simp)
    have ih := digitsVal_lt ds (fun x hx => h x (by simp [hx]))
    simp only [digitsVal, List.length_cons, pow_succ]
    calc d * 256 ^ ds.length + digitsVal ds < d * 256 ^ ds.length + 256 ^ ds.length := by omega
      _ = (d + 1) * 256 ^ ds.length := by ring
      _ ≤ 256 * 256 ^ ds.length := Nat.mul_le_mul_right _ (by omega)
      _ = 256 ^ ds.length * 256 := by ring

theorem lexLE_iff_digitsVal : ∀ (as bs : List Nat), as.length = bs.length →
    (∀ d ∈ as, d < 256) → (∀ d ∈ bs, d < 256) →
    (lexLE as bs = true ↔ digitsVal as ≤ digitsVal bs)
  | [], [], _, _, _ => by simp [lexLE]
  | a :: as, b :: bs, hlen, ha, hb => by
    have hlen' : as.length = bs.length := by simpa using hlen
    have hva : digitsVal as < 256 ^ as.length := digitsVal_lt as (fun x hx => ha x (by simp [hx]))
    have hvb : digitsVal bs < 256 ^ bs.length := digitsVal_lt bs (fun x hx => hb x (by simp [hx]))
    have ih := lexLE_iff_digitsVal as bs hlen' (fun x hx => ha x (by simp [hx]))
      (fun x hx => hb x (by simp [hx]))
    simp only [lexLE, digitsVal]
    rw [hlen']
    rcases Nat.lt_trichotomy a b with hab | hab | hab
    · have h1 : a * 256 ^ bs.length + digitsVal as < b * 256 ^ bs.length + digitsVal bs := by
        rw [hlen'] at hva
        calc a * 256 ^ bs.length + digitsVal as < a * 256 ^ bs.length + 256 ^ bs.length := by omega
          _ = (a + 1) * 256 ^ bs.length := by ring
          _ ≤ b * 256 ^ bs.length := Nat.mul_le_mul_right _ (by omega)
          _ ≤ b * 256 ^ bs.length + digitsVal bs := Nat.le_add_right _ _
      simp [hab, Nat.le_of_lt h1]
    · subst hab
      simp [lt_irrefl, ih]
    · have h1 : b * 256 ^ bs.length + digitsVal bs < a * 256 ^ bs.length + digitsVal as := by
        calc b * 256 ^ bs.length + digitsVal bs < b * 256 ^ bs.length + 256 ^ bs.length := by omega
          _ = (b + 1) * 256 ^ bs.length := by ring
          _ ≤ a * 256 ^ bs.length := Nat.mul_le_mul_right _ (by omega)
          _ ≤ a * 256 ^ bs.length + digitsVal as := Nat.le_add_right _ _
      have h2 : ¬ a < b := by omega
      simp [h2, hab]
      omega

theorem uint64ToBytes_bounded (n : Nat) : ∀ d ∈ uint64ToBytes n, d < 256 := by
  intro d hd
  simp [uint64ToBytes] at hd
  rcases hd with h | h | h | h | h | h | h | h <;> omega

theorem digitsVal_uint64ToBytes (n : Nat) (h : n < U64) : digitsVal (uint64ToBytes n) = n := by
  unfold U64 at h
  simp only [uint64ToBytes, digitsVal, List.length_cons, List.length_nil]
  norm_num
  omega

/-- Claim C8: the big-endian u64 key encoding is an order isomorphism
(`a ≤ b` iff `uint64ToBytes a` is lexicographically at most
`uint64ToBytes b`) and `bytesToUint64` inverts `uint64ToBytes` on every
64-bit value; hence index-ordered byte scans over the `logs` bucket keys
visit entries in numeric index order. -/
theorem uint64ToBytes_le_iff (a b : Nat) (ha : a < U64) (hb : b < U64) :
    ((a ≤ b) ↔ lexLE (uint64ToBytes a) (uint64ToBytes b) = true) ∧
    bytesToUint64 (uint64ToBytes a) = a := by
  constructor
  · rw [lexLE_iff_digitsVal (uint64ToBytes a) (uint64ToBytes b) (by simp [uint64ToBytes])
      (uint64ToBytes_bounded a) (uint64ToBytes_bounded b),
      digitsVal_uint64ToBytes a ha, digitsVal_uint64ToBytes b hb]
  · unfold U64 at ha
    unfold uint64ToBytes bytesToUint64
    simp only [List.getD_cons_zero, List.getD_cons_succ]
    omega

/-- Witness for C8 at a concrete pair of indices. -/
theorem uint64ToBytes_le_iff_witness :
    ((300 ≤ 70000) ↔ lexLE (uint64ToBytes 300) (uint64ToBytes 70000) = true) ∧
    bytesToUint64 (uint64ToBytes 300) = 300 :=
  uint64ToBytes_le_iff 300 70000 (by decide) (by decide)

/-- Claim C1 fails on the code: `Rollback` never touches the `blockmap`
bucket or the checkpoint.  In the concrete state `rollbackDemoState`
(checkpoint at block 3, anchor for block 7), `Rollback(3)` leaves the
anchor for block 7 in place — a `BlockAnchor` for a block number greater
than the rollback point and greater than the checkpoint's
`lastProcessedBlock` — and does not rewrite the checkpoint. -/
theorem rollback_cex :
    (7, "0xb7") ∈ (rollback rollbackDemoState 3).blockmap ∧
    (rollback rollbackDemoState 3).checkpoint = some ⟨3, 2, "0xb3", 0⟩ ∧
    3 < 7 := by
  refine ⟨by decide, rfl, by decide⟩

/-- Claim C1 (amended): `Rollback(A)` deletes, in one atomic transaction,
exactly the stored `LogRecord`s with `blockNumber > A`; it deletes no
`BlockAnchor`s and does not rewrite the checkpoint, so anchors for block
numbers beyond `A` (and beyond the checkpoint's `lastProcessedBlock`) may
remain after it completes. -/
theorem rollback_spec (st : BoltState) (a : Nat) :
    (rollback st a).logs = st.logs.filter (fun kv => !(a < kv.2.blockNumber)) ∧
    (rollback st a).blockmap = st.blockmap ∧
    (rollback st a).checkpoint = st.checkpoint :=
  ⟨rfl, rfl, rfl⟩

/-- Claim C2 fails on the code: there is no `StoreBatch`; logs, anchors
and the checkpoint are written by separate single-bucket transactions.
The state reached from a fresh store by one `StoreLog` call is a partial
write: a log record is visible while the blockmap is empty and no
checkpoint exists. -/
theorem storeBatch_cex :
    Reachable partialWriteState ∧ partialWriteState.logs ≠ [] ∧
    partialWriteState.blockmap = [] ∧ partialWriteState.checkpoint = none :=
  ⟨Reachable.storeLog entryBlock3 Reachable.init, by decide, rfl, rfl⟩

/-- Claim C2 (amended): the storage layer offers no combined
`StoreBatch`; each write operation is its own transaction touching
exactly one object family — `StoreLog` only the logs, `StoreBlockHash`
only the blockmap, `SaveCheckpoint` only the checkpoint — so states in
which one family is written and the others are not are reachable. -/
theorem storage_single_family_writes (st : BoltState) (e : LogEntry) (n : Nat) (h : String)
    (c : CheckpointData) :
    ((storeLog st e).blockmap = st.blockmap ∧ (storeLog st e).checkpoint = st.checkpoint) ∧
    ((storeBlockHash st n h).logs = st.logs ∧
      (storeBlockHash st n h).checkpoint = st.checkpoint) ∧
    ((saveCheckpoint st c).logs = st.logs ∧ (saveCheckpoint st c).blockmap = st.blockmap) :=
  ⟨⟨rfl, rfl⟩, ⟨rfl, rfl⟩, ⟨rfl, rfl⟩⟩

/-- Claim C5: after `Rollback(A)` every remaining log record has
`blockNumber ≤ A`; every record with `blockNumber ≤ A` survives with the
same key and the same value; and nothing new appears. -/
theorem rollback_frame (st : BoltState) (a : Nat) :
    (∀ kv ∈ (rollback st a).logs, kv.2.blockNumber ≤ a) ∧
    (∀ kv ∈ st.logs, kv.2.blockNumber ≤ a → kv ∈ (rollback st a).logs) ∧
    (∀ kv ∈ (rollback st a).logs, kv ∈ st.logs) := by
  refine ⟨?_, ?_, ?_⟩
  · intro kv hkv
    simp only [rollback, List.mem_filter, Bool.not_eq_true', decide_eq_false_iff_not,
      not_lt] at hkv
    exact hkv.2
  · intro kv hkv hle
    simp only [rollback, List.mem_filter, Bool.not_eq_true', decide_eq_false_iff_not, not_lt]
    exact ⟨hkv, hle⟩
  · intro kv hkv
    exact (List.mem_filter.mp hkv).1

/-- Witness for C5: in `rollbackDemoState`, the block-3 record survives
`Rollback(3)` unchanged. -/
theorem rollback_frame_witness : (0, entryBlock3) ∈ (rollback rollbackDemoState 3).logs :=
  (rollback_frame rollbackDemoState 3).2.1 (0, entryBlock3) (by decide) (by decide)

theorem scanFrom_prefix (endIndex : Nat) (limit : Int) :
    ∀ (l : List (Nat × LogEntry)) (cnt : Nat),
      scanFrom endIndex limit l cnt <+: l.map Prod.snd
  | [], _ => by simp [scanFrom]
  | (k, v) :: rest, cnt => by
    simp only [scanFrom, List.map_cons]
    split_ifs with h1 h2
    · exact List.nil_prefix
    · exact ⟨rest.map Prod.snd, rfl⟩
    · obtain ⟨t, ht⟩ := scanFrom_prefix endIndex limit rest (cnt + 1)
      exact ⟨t, by simp [ht]⟩

theorem scanFrom_length (endIndex : Nat) (limit : Int) (hl : 0 < limit) :
    ∀ (l : List (Nat × LogEntry)) (cnt : Nat), cnt < limit.toNat →
      (scanFrom endIndex limit l cnt).length ≤ limit.toNat - cnt
  | [], cnt, _ => by simp [scanFrom]
  | (k, v) :: rest, cnt, h => by
    simp only [scanFrom]
    split_ifs with h1 h2
    · simp
    · simp
      omega
    · have h3 : cnt + 1 < limit.toNat := by
        rw [not_and] at h2
        have := h2 hl
        omega
      have hrec := scanFrom_length endIndex limit hl rest (cnt + 1) h3
      simp only [List.length_cons]
      omega

theorem scanFrom_open (limit : Int) :
    ∀ (l : List (Nat × LogEntry)) (cnt : Nat), (0 < limit → (cnt : Int) < limit) →
      scanFrom 0 limit l cnt =
        if 0 < limit then (l.map Prod.snd).take (limit.toNat - cnt) else l.map Prod.snd
  | [], cnt, _ => by simp [scanFrom]
  | (k, v) :: rest, cnt, h => by
    simp only [scanFrom, List.map_cons]
    rw [if_neg (by simp)]
    by_cases h2 : 0 < limit ∧ limit ≤ (cnt : Int) + 1
    · rw [if_pos h2, if_pos h2.1]
      have h4 := h h2.1
      have h6 := h2.2
      have h5 : limit.toNat - cnt = 1 := by omega
      rw [h5]
      simp
    · rw [if_neg h2]
      by_cases h3 : 0 < limit
      · have h4 : (cnt : Int) + 1 < limit := by
          rw [not_and] at h2
          have := h2 h3
          omega
        rw [scanFrom_open limit rest (cnt + 1) (fun _ => by push_cast; omega)]
        rw [if_pos h3, if_pos h3]
        have h5 : limit.toNat - cnt = (limit.toNat - (cnt + 1)) + 1 := by omega
        rw [h5, List.take_succ_cons]
      · rw [scanFrom_open limit rest (cnt + 1) (fun hp => absurd hp h3)]
        rw [if_neg h3, if_neg h3]

/-- Claim C10: `GetLogsByRange` returns entries in strictly ascending
index order, every returned index is at least `startIndex`, at most
`limit` entries come back when `limit > 0`, and `endIndex = 0` acts as an
open-ended upper bound (every stored entry with index ≥ `startIndex`
qualifies, subject only to `limit`), not as the empty range
`[startIndex, 0]`. -/
theorem getLogsByRange_spec (st : BoltState) (startIndex endIndex : Nat) (limit : Int)
    (hsort : st.logs.Pairwise (fun a b => a.1 < b.1))
    (hwf : ∀ kv ∈ st.logs, kv.1 = kv.2.index) :
    ((getLogsByRange st startIndex endIndex limit).map LogEntry.index).Pairwise (· < ·) ∧
    (∀ e ∈ getLogsByRange st startIndex endIndex limit, startIndex ≤ e.index) ∧
    (0 < limit → (getLogsByRange st startIndex endIndex limit).length ≤ limit.toNat) ∧
    (endIndex = 0 → getLogsByRange st startIndex endIndex limit =
      (if 0 < limit then
        ((st.logs.filter (fun kv => startIndex ≤ kv.1)).map Prod.snd).take limit.toNat
       else (st.logs.filter (fun kv => startIndex ≤ kv.1)).map Prod.snd)) := by
  have hsubl : List.Sublist (st.logs.filter (fun kv => startIndex ≤ kv.1)) st.logs :=
    List.filter_sublist _
  have hpre := scanFrom_prefix endIndex limit (st.logs.filter (fun kv => startIndex ≤ kv.1)) 0
  refine ⟨?_, ?_, ?_, ?_⟩
  · have h1 : (st.logs.filter (fun kv => startIndex ≤ kv.1)).Pairwise
        (fun a b => a.2.index < b.2.index) := by
      refine (hsort.sublist hsubl).imp_of_mem ?_
      intro a b ha hb hab
      rw [← hwf a (hsubl.subset ha), ← hwf b (hsubl.subset hb)]
      exact hab
    have h2 : (((st.logs.filter (fun kv => startIndex ≤ kv.1)).map Prod.snd).map
        LogEntry.index).Pairwise (· < ·) := by
      rw [List.pairwise_map, List.pairwise_map]
      exact h1
    exact h2.sublist (hpre.sublist.map _)
  · intro e he
    have he2 := hpre.sublist.subset he
    obtain ⟨kv, hkv, rfl⟩ := List.mem_map.mp he2
    rw [← hwf kv (hsubl.subset hkv)]
    exact of_decide_eq_true (List.mem_filter.mp hkv).2
  · intro hl
    have := scanFrom_length endIndex limit hl
      (st.logs.filter (fun kv => startIndex ≤ kv.1)) 0 (by omega)
    simpa [getLogsByRange] using this
  · intro h0
    subst h0
    exact scanFrom_open limit (st.logs.filter (fun kv => startIndex ≤ kv.1)) 0
      (fun _ => by omega)

/-- Witness for C10 at a concrete store and query. -/
theorem getLogsByRange_spec_witness :
    (getLogsByRange rollbackDemoState 0 0 1).length ≤ (1 : Int).toNat :=
  (getLogsByRange_spec rollbackDemoState 0 0 1 (by decide) (by decide)).2.2.1 (by decide)

/-- Claim C6 fails on the code for a set-but-zero `blockNumber`: the
handler tests the parsed value (`blockNumber > 0`), not presence, so the
request `?blockNumber=0&txHash=0xdead` — whose `blockNumber` parameter is
set — is not routed to `GetLogsByBlockNumber` (it goes to the `txHash`
branch). -/
theorem handleGetLogs_blockZero_cex :
    qBlockZero.blockNumber ≠ none ∧
    (handleGetLogs rollbackDemoState qBlockZero).1 ≠ Route.byBlock ∧
    (handleGetLogs rollbackDemoState qBlockZero).1 = Route.byTx := by
  refine ⟨by decide, by decide, by decide⟩

/-- Claim C6 (amended): the handler routes by parsed-parameter priority —
if `blockNumber` parses to a value > 0 it queries `GetLogsByBlockNumber`;
otherwise if `txHash` is non-empty it queries `GetLogsByTxHash`;
otherwise it performs a range scan — and the response is always a list
value (`some …`, never the `none` that would serialize to JSON `null`),
so an empty result serializes to `[]`. -/
theorem handleGetLogs_routing (st : BoltState) (q : LogsQuery) :
    (0 < parseUint64 q.blockNumber 0 →
      (handleGetLogs st q).1 = Route.byBlock ∧
      (handleGetLogs st q).2 = some (getLogsByBlockNumber st (parseUint64 q.blockNumber 0))) ∧
    (parseUint64 q.blockNumber 0 = 0 → q.txHash ≠ "" →
      (handleGetLogs st q).1 = Route.byTx ∧
      (handleGetLogs st q).2 = some (getLogsByTxHash st q.txHash)) ∧
    (parseUint64 q.blockNumber 0 = 0 → q.txHash = "" →
      (handleGetLogs st q).1 = Route.byRange) ∧
    (handleGetLogs st q).2 ≠ none := by
  refine ⟨?_, ?_, ?_, ?_⟩
  · intro h
    simp [handleGetLogs, if_pos h]
  · intro h ht
    simp [handleGetLogs, h, ht]
  · intro h ht
    simp [handleGetLogs, h, ht]
  · simp only [handleGetLogs]
    split_ifs <;> simp

/-- Witness for C6 at a concrete request with `blockNumber=7`. -/
theorem handleGetLogs_routing_witness :
    (handleGetLogs rollbackDemoState qBlockSeven).1 = Route.byBlock :=
  ((handleGetLogs_routing rollbackDemoState qBlockSeven).1 (by decide)).1

theorem parseInt_lt (s : Option Int) : parseInt s 100 < 2 ^ 63 := by
  cases s with
  | none => norm_num [parseInt]
  | some v =>
    simp only [parseInt]
    split_ifs with h
    · exact h.2
    · norm_num

theorem dense_filter_drop (c : Nat) : ∀ (l : List (Nat × LogEntry)) (off : Nat),
    l.map Prod.fst = List.range' off l.length →
    l.filter (fun kv => c ≤ kv.1) = l.drop (c - off)
  | [], _, _ => by simp
  | (k, v) :: rest, off, h => by
    rw [List.map_cons, List.length_cons, List.range'_succ, List.cons_eq_cons] at h
    obtain ⟨rfl, hrest⟩ := h
    by_cases hc : c ≤ k
    · rw [List.filter_cons_of_pos (by simpa using hc),
        dense_filter_drop c rest (k + 1) hrest]
      have h1 : c - k = 0 := by omega
      have h2 : c - (k + 1) = 0 := by omega
      rw [h1, h2]
      simp
    · rw [List.filter_cons_of_neg (by simpa using hc),
        dense_filter_drop c rest (k + 1) hrest]
      have h1 : c - k = (c - (k + 1)) + 1 := by omega
      rw [h1, List.drop_succ_cons]

theorem scanFrom_all (endIndex : Nat) (limit : Int) :
    ∀ (l : List (Nat × LogEntry)) (cnt : Nat),
      (∀ kv ∈ l, ¬(0 < endIndex ∧ endIndex < kv.1)) →
      (0 < limit → (l.length : Int) + cnt ≤ limit) →
      scanFrom endIndex limit l cnt = l.map Prod.snd
  | [], _, _, _ => by simp [scanFrom]
  | (k, v) :: rest, cnt, hb, hlen => by
    simp only [scanFrom, List.map_cons]
    rw [if_neg (hb (k, v) (by simp))]
    by_cases h2 : 0 < limit ∧ limit ≤ (cnt : Int) + 1
    · have hl := hlen h2.1
      have h6 := h2.2
      simp only [List.length_cons] at hl
      have h7 : rest = [] := by
        have : rest.length = 0 := by push_cast at hl; omega
        exact List.length_eq_zero.mp this
      subst h7
      rw [if_pos h2]
      simp
    · rw [if_neg h2,
        scanFrom_all endIndex limit rest (cnt + 1)
          (fun kv hkv => hb kv (by simp [hkv]))
          (fun hp => by
            have := hlen hp
            simp only [List.length_cons] at this
            push_cast at this ⊢
            omega)]

/-- Claim C9: on a `GET /v1/logs` request that supplies neither index and
has `limit > 0`, the default-window computation `startIndex = total -
uint64(limit)` wraps modulo `2 ^ 64` when `0 < total < limit`, so the
request returns the empty list; the stored logs come back (as the last
`limit` entries) exactly when `total ≥ limit`. -/
theorem handleGetLogs_default_window (st : BoltState) (q : LogsQuery)
    (hs : q.startIndex = none) (he : q.endIndex = none) (hb : q.blockNumber = none)
    (ht : q.txHash = "")
    (hdense : st.logs.map Prod.fst = List.range st.logs.length)
    (hpos : 0 < st.logs.length) (hlen : st.logs.length < U64)
    (hlim : 0 < parseInt q.limit 100) :
    (st.logs.length < (parseInt q.limit 100).toNat →
      u64sub st.logs.length (intToU64 (parseInt q.limit 100)) =
        U64 + st.logs.length - (parseInt q.limit 100).toNat ∧
      (handleGetLogs st q).2 = some []) ∧
    ((parseInt q.limit 100).toNat ≤ st.logs.length →
      (handleGetLogs st q).2 =
        some ((st.logs.drop (st.logs.length - (parseInt q.limit 100).toNat)).map Prod.snd)) := by
  have hU : U64 = 2 ^ 64 := rfl
  have hL63 : parseInt q.limit 100 < 2 ^ 63 := parseInt_lt q.limit
  have hIT : intToU64 (parseInt q.limit 100) = (parseInt q.limit 100).toNat := by
    unfold intToU64
    rw [Int.emod_eq_of_lt (le_of_lt hlim) (by rw [hU]; push_cast; omega)]
  have hroute : (handleGetLogs st q).2 =
      some (getLogsByRange st
        (u64sub st.logs.length (intToU64 (parseInt q.limit 100)))
        (st.logs.length - 1) (parseInt q.limit 100)) := by
    simp only [handleGetLogs, hs, he, hb, ht, parseUint64, getTotalCount]
    rw [if_neg (by decide), if_neg (by simp), if_pos ⟨trivial, trivial, hlim⟩, if_pos hpos]
  constructor
  · intro hlt
    have hwrap : u64sub st.logs.length (intToU64 (parseInt q.limit 100)) =
        U64 + st.logs.length - (parseInt q.limit 100).toNat := by
      rw [hIT]
      unfold u64sub
      rw [Nat.mod_eq_of_lt (by omega)]
      omega
    refine ⟨hwrap, ?_⟩
    rw [hroute, hwrap]
    have hfil : st.logs.filter
        (fun kv => U64 + st.logs.length - (parseInt q.limit 100).toNat ≤ kv.1) = [] := by
      rw [List.filter_eq_nil_iff]
      intro kv hkv
      have hk : kv.1 < st.logs.length := by
        have : kv.1 ∈ st.logs.map Prod.fst := List.mem_map_of_mem _ hkv
        rw [hdense] at this
        exact List.mem_range.mp this
      simp only [decide_eq_true_eq]
      omega
    unfold getLogsByRange
    rw [hfil]
    simp [scanFrom]
  · intro hge
    have hS : u64sub st.logs.length (intToU64 (parseInt q.limit 100)) =
        st.logs.length - (parseInt q.limit 100).toNat := by
      rw [hIT]
      unfold u64sub
      have h1 : st.logs.length + U64 - (parseInt q.limit 100).toNat =
          (st.logs.length - (parseInt q.limit 100).toNat) + U64 := by omega
      rw [h1, Nat.add_mod_right]
      exact Nat.mod_eq_of_lt (by omega)
    rw [hroute, hS]
    unfold getLogsByRange
    rw [dense_filter_drop (st.logs.length - (parseInt q.limit 100).toNat) st.logs 0
      (by rw [hdense, List.range_eq_range']), Nat.sub_zero]
    rw [scanFrom_all (st.logs.length - 1) (parseInt q.limit 100) _ 0
      (fun kv hkv => by
        have hk : kv.1 < st.logs.length := by
          have : kv.1 ∈ st.logs.map Prod.fst :=
            List.mem_map_of_mem _ (List.drop_subset _ _ hkv)
          rw [hdense] at this
          exact List.mem_range.mp this
        omega)
      (fun _ => by
        rw [List.length_drop]
        have h2 : st.logs.length - (st.logs.length - (parseInt q.limit 100).toNat) =
            (parseInt q.limit 100).toNat := by omega
        rw [h2]
        omega)]

/-- Witness for C9: the two-entry demo store with the default limit of
100 — the wrapped start index makes the handler return the empty list. -/
theorem handleGetLogs_default_window_witness :
    (handleGetLogs rollbackDemoState qDefault).2 = some [] :=
  ((handleGetLogs_default_window rollbackDemoState qDefault rfl rfl rfl rfl
    (by decide) (by decide) (by decide) (by decide)).1 (by decide)).2

/-- Claim C7 fails on the code: `Validate` never checks `workers`.  A
configuration with all three required strings set but `workers = 0`
(outside the claimed 1–64 range) passes validation. -/
theorem validate_workers_cex :
    workersZeroConfig.Validate = none ∧
    ¬(1 ≤ workersZeroConfig.workers ∧ workersZeroConfig.workers ≤ 64) := by
  refine ⟨by decide, by decide⟩

/-- Claim C7 (amended): startup validation accepts a configuration
exactly when `rpc`, `contract` and `topic` are all non-empty; the
`workers` range 1–64 is not checked. -/
theorem validate_iff (c : Config) :
    c.Validate = none ↔ (c.rpc ≠ "" ∧ c.contractAddr ≠ "" ∧ c.eventTopic ≠ "") := by
  unfold Config.Validate
  split_ifs with h1 h2 h3 <;> simp_all

theorem genBatchesAux_exit (endB maxRange : Nat) (counts : Nat → Nat → Nat)
    (fuel start idx : Nat) (h : endB < start) :
    genBatchesAux endB maxRange counts fuel start idx = some [] := by
  cases fuel <;> simp [genBatchesAux, h]

theorem genBatchesAux_sound (endB maxRange : Nat) (counts : Nat → Nat → Nat)
    (hmr : 1 ≤ maxRange) (hov : endB + maxRange ≤ U64) (hend : endB + 1 < U64) :
    ∀ (fuel start idx : Nat), start ≤ endB → endB + 1 ≤ start + fuel →
      ∃ ws, genBatchesAux endB maxRange counts fuel start idx = some ws ∧
        ws.head?.map BatchInfo.startBlock = some start ∧
        ws.getLast?.map BatchInfo.endBlock = some endB ∧
        List.Chain' (fun a b => b.startBlock = a.endBlock + 1) ws ∧
        ∀ b ∈ ws, b.startBlock ≤ b.endBlock ∧ b.endBlock + 1 ≤ b.startBlock + maxRange
  | 0, start, idx, hs, hf => by omega
  | fuel + 1, start, idx, hs, hf => by
    have hU : U64 = 2 ^ 64 := rfl
    have hnex : ¬ endB < start := by omega
    have he0 : (start + maxRange - 1) % U64 = start + maxRange - 1 :=
      Nat.mod_eq_of_lt (by omega)
    have hE : batchEnd endB maxRange start =
        if endB < start + maxRange - 1 then endB else start + maxRange - 1 := by
      rw [batchEnd, he0]
    have hE1 : start ≤ batchEnd endB maxRange start := by
      rw [hE]; split_ifs <;> omega
    have hE2 : batchEnd endB maxRange start ≤ endB := by
      rw [hE]; split_ifs <;> omega
    have hE3 : batchEnd endB maxRange start + 1 ≤ start + maxRange := by
      rw [hE]; split_ifs <;> omega
    have hnext : (batchEnd endB maxRange start + 1) % U64 = batchEnd endB maxRange start + 1 :=
      Nat.mod_eq_of_lt (by omega)
    by_cases hfin : batchEnd endB maxRange start = endB
    · refine ⟨[⟨start, batchEnd endB maxRange start, idx,
        counts start (batchEnd endB maxRange start)⟩], ?_, ?_, ?_, ?_, ?_⟩
      · simp only [genBatchesAux]
        rw [if_neg hnex, hnext, genBatchesAux_exit endB maxRange counts fuel _ _ (by omega)]
        rfl
      · simp
      · simp [hfin]
      · simp
      · intro b hb
        simp only [List.mem_singleton] at hb
        subst hb
        exact ⟨hE1, hE3⟩
    · have hElt : batchEnd endB maxRange start < endB := lt_of_le_of_ne hE2 hfin
      obtain ⟨ws, hw, hhead, hlast, hchain, hbnd⟩ :=
        genBatchesAux_sound endB maxRange counts hmr hov hend fuel
          (batchEnd endB maxRange start + 1)
          ((idx + counts start (batchEnd endB maxRange start)) % U64)
          (by omega) (by omega)
      refine ⟨⟨start, batchEnd endB maxRange start, idx,
        counts start (batchEnd endB maxRange start)⟩ :: ws, ?_, ?_, ?_, ?_, ?_⟩
      · simp only [genBatchesAux]
        rw [if_neg hnex, hnext, hw]
        rfl
      · simp
      · cases ws with
        | nil => simp at hhead
        | cons w t => simpa [List.getLast?_cons_cons] using hlast
      · rw [List.chain'_cons']
        refine ⟨?_, hchain⟩
        intro y hy
        cases ws with
        | nil => simp at hy
        | cons w t =>
          simp only [List.head?_cons, Option.mem_some_iff] at hy
          simp only [List.head?_cons, Option.map_some', Option.some.injEq] at hhead
          subst hy
          exact hhead
      · intro b hb
        rcases List.mem_cons.mp hb with rfl | hb'
        · exact ⟨hE1, hE3⟩
        · exact hbnd b hb'

/-- Claim C4 (amended): for `fromBlock ≤ toBlock`, `maxRange ≥ 1` and
enough fuel for the loop to exit, and provided the range stays clear of
`uint64` overflow (`toBlock + maxRange ≤ 2^64` and `toBlock + 1 < 2^64`),
the planner returns an ordered window sequence in which the first window
starts at `fromBlock`, the last ends at `toBlock`, consecutive windows
are contiguous and non-overlapping (`next.start = prev.end + 1`), and
every window `[s, e]` has `s ≤ e` and width `e − s + 1 ≤ maxRange`.
Without the overflow side conditions the claim fails
(`generateAdaptiveBatches_overflow_cex`). -/
theorem generateAdaptiveBatches_windows (startB endB maxRange : Nat)
    (counts : Nat → Nat → Nat) (fuel : Nat)
    (h1 : startB ≤ endB) (h2 : 1 ≤ maxRange) (h3 : endB + maxRange ≤ U64)
    (h4 : endB + 1 < U64) (h5 : endB + 1 ≤ startB + fuel) :
    ∃ ws, generateAdaptiveBatches startB endB maxRange counts fuel = some ws ∧
      ws.head?.map BatchInfo.startBlock = some startB ∧
      ws.getLast?.map BatchInfo.endBlock = some endB ∧
      List.Chain' (fun a b => b.startBlock = a.endBlock + 1) ws ∧
      ∀ b ∈ ws, b.startBlock ≤ b.endBlock ∧ b.endBlock + 1 ≤ b.startBlock + maxRange :=
  genBatchesAux_sound endB maxRange counts h2 h3 h4 fuel startB 0 h1 h5

/-- Witness for C4 on the spec's own scenario `from=100, to=104,
maxRange=2`. -/
theorem generateAdaptiveBatches_windows_witness :
    ∃ ws, generateAdaptiveBatches 100 104 2 (fun _ _ => 0) 5 = some ws ∧
      ws.head?.map BatchInfo.startBlock = some 100 ∧
      ws.getLast?.map BatchInfo.endBlock = some 104 ∧
      List.Chain' (fun a b => b.startBlock = a.endBlock + 1) ws ∧
      ∀ b ∈ ws, b.startBlock ≤ b.endBlock ∧ b.endBlock + 1 ≤ b.startBlock + 2 :=
  generateAdaptiveBatches_windows 100 104 2 (fun _ _ => 0) 5 (by norm_num)
    (by norm_num) (by norm_num [U64]) (by norm_num [U64]) (by norm_num)

theorem genBatchesAux_max_no_exit (counts : Nat → Nat → Nat) :
    ∀ (fuel start idx : Nat), start < U64 →
      genBatchesAux (U64 - 1) 1 counts fuel start idx = none
  | 0, start, idx, h => by
    have hU : U64 = 2 ^ 64 := rfl
    simp only [genBatchesAux]
    rw [if_neg (by omega)]
  | fuel + 1, start, idx, h => by
    have hU : U64 = 2 ^ 64 := rfl
    simp only [genBatchesAux]
    rw [if_neg (by omega)]
    rw [genBatchesAux_max_no_exit counts fuel _ _ (Nat.mod_lt _ (by omega))]
    rfl

/-- Claim C4 fails as universally stated: at
`fromBlock = toBlock = 2^64 − 1` (a valid `uint64` input) with
`maxRange = 1`, the advance `startBlock = endBlock + 1` wraps to 0, the
loop condition `startBlock ≤ endBlock` never becomes false, and
`generateAdaptiveBatches` never returns — so no window sequence with the
claimed shape is produced. -/
theorem generateAdaptiveBatches_overflow_cex :
    ¬ ∃ (fuel : Nat) (ws : List BatchInfo),
      generateAdaptiveBatches (U64 - 1) (U64 - 1) 1 (fun _ _ => 0) fuel = some ws := by
  rintro ⟨fuel, ws, hws⟩
  rw [generateAdaptiveBatches,
    genBatchesAux_max_no_exit (fun _ _ => 0) fuel (U64 - 1) 0 (by norm_num [U64])] at hws
  exact Option.noConfusion hws

theorem genBatchesAux_indices (endB maxRange : Nat) (counts : Nat → Nat → Nat) :
    ∀ (fuel start idx : Nat) (ws : List BatchInfo),
      genBatchesAux endB maxRange counts fuel start idx = some ws →
      (ws = [] ∨ ws.head?.map BatchInfo.startIndex = some idx) ∧
      List.Chain' (fun a b => b.startIndex = (a.startIndex + a.logCount) % U64) ws ∧
      ∀ b ∈ ws, b.logCount = counts b.startBlock b.endBlock
  | 0, start, idx, ws, h => by
    simp only [genBatchesAux] at h
    split_ifs at h
    obtain rfl : ([] : List BatchInfo) = ws := Option.some.inj h
    exact ⟨Or.inl rfl, List.chain'_nil, by simp⟩
  | fuel + 1, start, idx, ws, h => by
    simp only [genBatchesAux] at h
    split_ifs at h with hc
    · obtain rfl : ([] : List BatchInfo) = ws := Option.some.inj h
      exact ⟨Or.inl rfl, List.chain'_nil, by simp⟩
    · cases hrec : genBatchesAux endB maxRange counts fuel
        ((batchEnd endB maxRange start + 1) % U64)
        ((idx + counts start (batchEnd endB maxRange start)) % U64) with
      | none =>
        rw [hrec] at h
        exact absurd h (by simp)
      | some ws' =>
        rw [hrec] at h
        simp only [Option.map_some', Option.some.injEq] at h
        obtain ⟨hhead', hchain', hcount'⟩ :=
          genBatchesAux_indices endB maxRange counts fuel _ _ ws' hrec
        subst h
        refine ⟨Or.inr (by simp), ?_, ?_⟩
        · rw [List.chain'_cons']
          refine ⟨?_, hchain'⟩
          intro y hy
          cases ws' with
          | nil => simp at hy
          | cons w t =>
            simp only [List.head?_cons, Option.mem_some_iff] at hy
            rcases hhead' with h0 | hh
            · exact absurd h0 (by simp)
            · simp only [List.head?_cons, Option.map_some', Option.some.injEq] at hh
              subst hy
              exact hh
        · intro b hb
          rcases List.mem_cons.mp hb with rfl | hb'
          · rfl
          · exact hcount' b hb'

theorem processAdaptiveBatch_indices (b : BatchInfo) (logs : List RawLog) :
    (processAdaptiveBatch b logs).map MainLogEntry.index =
      (List.range logs.length).map (fun i => (b.startIndex + i) % U64) := by
  unfold processAdaptiveBatch
  rw [List.map_map]
  have h1 : (MainLogEntry.index ∘ fun p : Nat × RawLog =>
      (⟨(b.startIndex + p.1) % U64, p.2.blockNumber, p.2.parentHash, p.2.data,
        p.2.timestamp, p.2.gasUsed, p.2.txHash, p.2.logIndex⟩ : MainLogEntry)) =
      (fun i => (b.startIndex + i) % U64) ∘ Prod.fst := rfl
  rw [h1, ← List.map_map, List.enum_map_fst]

/-- Claim C3 (amended): batch planning DOES pre-reserve global log
indices.  `generateAdaptiveBatches` pre-scans every window before any
batch is processed: each planned batch records the pre-scanned log count
of its window, the first batch reserves the running index counter, each
later batch reserves the previous batch's reservation plus its
pre-scanned count (wrapping `uint64`), and `processAdaptiveBatch` then
stores the `i`-th fetched log of a batch at index `StartIndex + i` — not
by incrementing a single commit-time counter. -/
theorem batch_prereservation :
    (∀ (endB maxRange : Nat) (counts : Nat → Nat → Nat) (fuel start idx : Nat)
        (ws : List BatchInfo),
      genBatchesAux endB maxRange counts fuel start idx = some ws →
      (ws = [] ∨ ws.head?.map BatchInfo.startIndex = some idx) ∧
      List.Chain' (fun a b => b.startIndex = (a.startIndex + a.logCount) % U64) ws ∧
      ∀ b ∈ ws, b.logCount = counts b.startBlock b.endBlock) ∧
    (∀ (b : BatchInfo) (logs : List RawLog),
      (processAdaptiveBatch b logs).map MainLogEntry.index =
        (List.range logs.length).map (fun i => (b.startIndex + i) % U64)) :=
  ⟨fun endB maxRange counts fuel start idx ws h =>
    genBatchesAux_indices endB maxRange counts fuel start idx ws h,
   processAdaptiveBatch_indices⟩

/-- Witness for C3 on a concrete plan: two windows of five blocks with
five pre-scanned logs each; the second batch's reservation is the first
batch's reservation plus its log count. -/
theorem batch_prereservation_witness :
    List.Chain' (fun a b => b.startIndex = (a.startIndex + a.logCount) % U64)
      ([⟨0, 4, 0, 5⟩, ⟨5, 9, 5, 5⟩] : List BatchInfo) :=
  (batch_prereservation.1 9 5 (fun _ _ => 5) 10 0 0 [⟨0, 4, 0, 5⟩, ⟨5, 9, 5, 5⟩]
    (by decide)).2.1

/-- Claim C3 fails on the code: the planner's output depends on the
pre-fetch log counts — with all pre-scan counts 0 it reserves start
index 0 for the second window, with counts 5 it reserves 5 — so starting
indices ARE computed (from a pre-scan) before any fetch/commit runs. -/
theorem batch_prereservation_cex :
    generateAdaptiveBatches 0 9 5 (fun _ _ => 0) 10 ≠
      generateAdaptiveBatches 0 9 5 (fun _ _ => 5) 10 ∧
    Option.map (List.map BatchInfo.startIndex)
      (generateAdaptiveBatches 0 9 5 (fun _ _ => 5) 10) = some [0, 5] := by
  refine ⟨by decide, by decide⟩

/-- Witness for C7: the concrete configuration with non-empty strings
passes validation. -/
theorem validate_iff_witness : workersZeroConfig.Validate = none :=
  (validate_iff workersZeroConfig).mpr ⟨by decide, by decide, by decide⟩
